import Mathlib

/-!
# Verification of `single-linked-list.h`

Shallow embedding of `src/single-linked-list/single-linked-list.h`, a generic
singly linked list `SingleLinkedList<Type>` built from heap `Node`s rooted at a
sentinel `Node head_` embedded in the list object.

Embedding choices, matching the source:

* A `Node` holds a `Type value` and a `Node* next_node`.  We represent the
  chain of real nodes owned by a list as a `List (Nat × α)` of
  (address, value) pairs in link order; the `next_node` pointers are implicit
  in the order of that list, the last node's `next_node` being `nullptr`.
* The sentinel `head_` is embedded in the list object and is never freed; we
  keep only its address (`head_ : Nat`).  Its `next_node` is the head of
  `chain`.
* The stored element count `size_` is kept as a separate field, exactly as in
  the source (the source increments and decrements it by hand, so the model
  does not identify it with `chain.length`).
* Iterators (`BasicIterator`) hold a `Node*`; we embed a cursor as
  `Option Nat`, `none` standing for the null pointer (the `end()` iterator),
  `some p` for a pointer to the node at address `p`.
* `new` returns fresh addresses; operations that allocate take the fresh
  address as an explicit argument.
* Operations guarded by `assert` in the source are modelled as total
  functions; the assertion-failure branches (unreachable under the stated
  preconditions) return the list unchanged.
-/

structure SingleLinkedList (α : Type) where
  head_ : Nat
  chain : List (Nat × α)
  size_ : Nat
  deriving DecidableEq

namespace SingleLinkedList

variable {α : Type}

/-- Addresses of the real nodes of the chain, in link order. -/
def addrs (l : SingleLinkedList α) : List Nat :=
  l.chain.map Prod.fst

/-- Element values of the chain, in link order (the sequence a forward
traversal from `begin()` to `end()` yields). -/
def values (l : SingleLinkedList α) : List α :=
  l.chain.map Prod.snd

/-- Addresses of all nodes owned by the list: the embedded sentinel `head_`
followed by the real nodes. -/
def nodeSeq (l : SingleLinkedList α) : List Nat :=
  l.head_ :: l.addrs

/-- `begin()` / `cbegin()`: `Iterator(head_.next_node)`. -/
def begin (l : SingleLinkedList α) : Option Nat :=
  l.chain.head?.map Prod.fst

/-- `end()` / `cend()`: `Iterator(nullptr)`. -/
def endIt (_ : SingleLinkedList α) : Option Nat :=
  none

/-- `before_begin()` / `cbefore_begin()`: `Iterator(&head_)`. -/
def before_begin (l : SingleLinkedList α) : Option Nat :=
  some l.head_

/-- `GetSize()`: `return size_;`. -/
def GetSize (l : SingleLinkedList α) : Nat :=
  l.size_

/-- `IsEmpty()`: `return !size_;`. -/
def IsEmpty (l : SingleLinkedList α) : Bool :=
  l.size_ == 0

/-- `PushFront(value)`: `head_.next_node = new Node(value, head_.next_node);
++size_;`.  `a` is the address of the freshly allocated node. -/
def PushFront (l : SingleLinkedList α) (a : Nat) (value : α) :
    SingleLinkedList α :=
  ⟨l.head_, (a, value) :: l.chain, l.size_ + 1⟩

/-- `PopFront()`: unlink and delete the first real node, `--size_`.
The source asserts `size_ != 0 && head_.next_node != nullptr`. -/
def PopFront (l : SingleLinkedList α) : SingleLinkedList α :=
  ⟨l.head_, l.chain.tail, l.size_ - 1⟩

/-- Splice a new node `(a, value)` after the first node with address `pos`:
`pos.node_->next_node = new Node(value, pos.node_->next_node);`.
If no node of the chain has address `pos`, the chain is unchanged (the
source would then be mutating a node owned elsewhere). -/
def insertChain (pos a : Nat) (value : α) :
    List (Nat × α) → List (Nat × α)
  | [] => []
  | n :: rest =>
    if n.1 = pos then n :: (a, value) :: rest
    else n :: insertChain pos a value rest

/-- `InsertAfter(pos, value)`: splice a new node after `pos` and `++size_`;
returns `Iterator(pos.node_->next_node)`, the new node.  The source asserts
`pos.node_`; the `none` branch is that assertion failure (unreachable under
the precondition) and leaves the list unchanged.  `a` is the address of the
freshly allocated node. -/
def InsertAfter (l : SingleLinkedList α) (pos : Option Nat) (a : Nat)
    (value : α) : SingleLinkedList α × Option Nat :=
  match pos with
  | none => (l, none)
  | some p =>
    if p = l.head_ then
      (⟨l.head_, (a, value) :: l.chain, l.size_ + 1⟩, some a)
    else
      (⟨l.head_, insertChain p a value l.chain, l.size_ + 1⟩, some a)

/-- Unlink and delete the node following the first node with address `pos`,
returning the updated chain and `Iterator(ptr_on_elem_after_deleted)`.
A node with address `pos` but no successor is the source's assertion failure
`pos.node_->next_node`; that branch leaves the chain unchanged. -/
def eraseChain (pos : Nat) :
    List (Nat × α) → List (Nat × α) × Option Nat
  | [] => ([], none)
  | n :: rest =>
    if n.1 = pos then
      match rest with
      | [] => ([n], none)
      | _ :: rest2 => (n :: rest2, rest2.head?.map Prod.fst)
    else
      let r := eraseChain pos rest
      (n :: r.1, r.2)

/-- `EraseAfter(pos)`: unlink and delete `pos.node_->next_node`, `--size_`,
return an iterator to the element now following `pos` (or `end()`).
The source asserts `size_ != 0 && pos.node_ && pos.node_->next_node`; the
`none` branch is that assertion failure (unreachable under the
precondition). -/
def EraseAfter (l : SingleLinkedList α) (pos : Option Nat) :
    SingleLinkedList α × Option Nat :=
  match pos with
  | none => (l, none)
  | some p =>
    if p = l.head_ then
      (⟨l.head_, l.chain.tail, l.size_ - 1⟩, l.chain.tail.head?.map Prod.fst)
    else
      let r := eraseChain p l.chain
      (⟨l.head_, r.1, l.size_ - 1⟩, r.2)

/-- `Clear()`: delete every real node, `size_ = 0`. -/
def Clear (l : SingleLinkedList α) : SingleLinkedList α :=
  ⟨l.head_, [], 0⟩

/-- `swap(other)`: `std::swap(size_, other.size_); std::swap(head_.next_node,
other.head_.next_node);`.  The two sentinels stay embedded in their own list
objects; only the forward links and sizes are exchanged.  Returns the pair
(this after swap, other after swap). -/
def swap (l other : SingleLinkedList α) :
    SingleLinkedList α × SingleLinkedList α :=
  (⟨l.head_, other.chain, other.size_⟩, ⟨other.head_, l.chain, l.size_⟩)

/-- The loop of `CreateSingleLinkedList`: starting from the freshly
default-constructed `container_copy` with `insert_after_pos =
container_copy.before_begin()`, insert each source element after the
previously inserted one.  `fail v = true` models the element copy
constructor throwing while `new Node(value, next)` copies `v` (the memory of
the node under construction is then released by the runtime, so a node whose
element copy threw counts as not allocated).  Fresh node addresses are
`fresh, fresh + 1, ...`.  Returns `(ok, container_copy when the loop stops,
number of nodes allocated)`; `ok = false` means the exception escaped the
loop. -/
def createLoop (fail : α → Bool) :
    List α → SingleLinkedList α → Option Nat → Nat →
    Bool × SingleLinkedList α × Nat
  | [], copy, _, _ => (true, copy, 0)
  | v :: vs, copy, pos, fresh =>
    if fail v then (false, copy, 0)
    else
      let step := copy.InsertAfter pos fresh v
      let r := createLoop fail vs step.1 step.2 (fresh + 1)
      (r.1, r.2.1, r.2.2 + 1)

/-- `CreateSingleLinkedList(container)`: build `container_copy` (a local
empty list whose sentinel has address `s2`), fill it with the source values
by the insertion loop, then `swap(container_copy)` into `this` (= `l`).
When the loop throws, `container_copy`'s destructor clears it.  Returns
`(ok, this afterwards, nodes allocated, nodes freed when the local
container_copy is destroyed)`: on success the local object holds `this`'s
old chain after the swap, on failure it holds the partial copy. -/
def CreateSingleLinkedList (fail : α → Bool) (l : SingleLinkedList α)
    (vals : List α) (s2 fresh : Nat) :
    Bool × SingleLinkedList α × Nat × Nat :=
  let r := createLoop fail vals ⟨s2, [], 0⟩ (some s2) fresh
  if r.1 then
    let p := l.swap r.2.1
    (true, p.1, r.2.2, p.2.chain.length)
  else
    (false, l, r.2.2, r.2.1.chain.length)

/-- `SingleLinkedList(std::initializer_list<Type> values)`: the constructed
object has sentinel address `s`; `CreateSingleLinkedList(values)` uses a
local `container_copy` with sentinel address `s2` and fresh node addresses
from `fresh`.  A literal sequence of already constructed elements is copied
without failure. -/
def initList (s s2 fresh : Nat) (values : List α) : SingleLinkedList α :=
  (CreateSingleLinkedList (fun _ => false) ⟨s, [], 0⟩ values s2 fresh).2.1

/-- `SingleLinkedList(const SingleLinkedList& other)`: the constructed
object (sentinel address `s`) runs `CreateSingleLinkedList(other)`, which
traverses `other`'s values.  Same return convention as
`CreateSingleLinkedList`. -/
def copyCtor (fail : α → Bool) (other : SingleLinkedList α)
    (s s2 fresh : Nat) : Bool × SingleLinkedList α × Nat × Nat :=
  CreateSingleLinkedList fail ⟨s, [], 0⟩ (values other) s2 fresh

/-- `operator=(rhs)`: `if (this != &rhs) { auto rhs_copy(rhs);
swap(rhs_copy); }`.  `sameObj` models `this == &rhs`.  The stack object
`rhs_copy` has sentinel address `s2` and its internal `container_copy` has
sentinel address `s3`; fresh node addresses start at `fresh`.  Returns
`(this afterwards, nodes allocated, nodes freed)`: on success `rhs_copy`'s
destructor frees `this`'s old chain after the swap; on failure the copy
constructor's partial nodes were already freed and `this` is untouched. -/
def assign (fail : α → Bool) (l rhs : SingleLinkedList α) (sameObj : Bool)
    (s2 s3 fresh : Nat) : SingleLinkedList α × Nat × Nat :=
  if sameObj then (l, 0, 0)
  else
    let c := copyCtor fail rhs s2 s3 fresh
    if c.1 then
      let p := l.swap c.2.1
      (p.1, c.2.2.1, c.2.2.2 + p.2.chain.length)
    else
      (l, c.2.2.1, c.2.2.2)

/-- The address following the first occurrence of `pos` in a list of node
addresses: the node `pos.node_->next_node` points to, `none` for
`nullptr`. -/
def succIn (pos : Nat) : List Nat → Option Nat
  | [] => none
  | [_] => none
  | a :: b :: rest => if a = pos then some b else succIn pos (b :: rest)

/-- A (non-null) cursor refers into list `l` when the node it references is
owned by `l`: `l`'s embedded sentinel or a real node of `l`'s chain. -/
def refersInto (c : Nat) (l : SingleLinkedList α) : Prop :=
  c = l.head_ ∨ c ∈ l.addrs

instance (c : Nat) (l : SingleLinkedList α) : Decidable (refersInto c l) := by
  unfold refersInto
  infer_instance

end SingleLinkedList

open SingleLinkedList

/-- `std::equal(lhs.begin(), lhs.end(), rhs.begin())`: walk the first range
to its end, comparing with the elements of the second range in lockstep.
Running off the end of the second range is undefined behaviour in the
source; `operator==` only reaches `std::equal` after the size guard, so that
branch is unreachable there and modelled as `false`. -/
def stdEqual [DecidableEq α] : List α → List α → Bool
  | [], _ => true
  | _ :: _, [] => false
  | a :: as, b :: bs => a == b && stdEqual as bs

/-- `operator==`: `lhs.GetSize() == rhs.GetSize() &&
std::equal(lhs.begin(), lhs.end(), rhs.begin())`. -/
def listEq [DecidableEq α] (lhs rhs : SingleLinkedList α) : Bool :=
  lhs.GetSize == rhs.GetSize && stdEqual (values lhs) (values rhs)

/-- `operator!=`: `!(lhs == rhs)`. -/
def listNe [DecidableEq α] (lhs rhs : SingleLinkedList α) : Bool :=
  !(listEq lhs rhs)

/-- `std::lexicographical_compare(first1, last1, first2, last2)` with
`operator<` on the elements. -/
def lexCompare [LinearOrder α] : List α → List α → Bool
  | _, [] => false
  | [], _ :: _ => true
  | a :: as, b :: bs =>
    if a < b then true else if b < a then false else lexCompare as bs

/-- `operator<`: `std::lexicographical_compare(lhs.begin(), lhs.end(),
rhs.begin(), rhs.end())`. -/
def listLt [LinearOrder α] (lhs rhs : SingleLinkedList α) : Bool :=
  lexCompare (values lhs) (values rhs)

/-- `operator<=`: `!(rhs < lhs)`. -/
def listLe [LinearOrder α] (lhs rhs : SingleLinkedList α) : Bool :=
  !(listLt rhs lhs)

/-- `operator>`: `rhs < lhs`. -/
def listGt [LinearOrder α] (lhs rhs : SingleLinkedList α) : Bool :=
  listLt rhs lhs

/-- `operator>=`: `!(lhs < rhs)`. -/
def listGe [LinearOrder α] (lhs rhs : SingleLinkedList α) : Bool :=
  !(listLt lhs rhs)

namespace SingleLinkedList

variable {α : Type}

/-- The structural bookkeeping the implementation maintains: the stored
`size_` equals the number of real nodes reachable from the sentinel. -/
def WF (l : SingleLinkedList α) : Prop :=
  l.size_ = l.chain.length

/-- List states reachable through the public interface, each operation
invoked only when its documented precondition (the source's `assert`)
holds.  The address-freshness hypotheses on the constructing operations
record that `new` yields addresses distinct from the local sentinel. -/
inductive Reachable : SingleLinkedList α → Prop
  | ctorDefault (s : Nat) : Reachable ⟨s, [], 0⟩
  | ctorInitList (s s2 fresh : Nat) (vals : List α) :
      s2 < fresh → Reachable (initList s s2 fresh vals)
  | ctorCopy (fail : α → Bool) (other : SingleLinkedList α)
      (s s2 fresh : Nat) : Reachable other → s2 < fresh →
      Reachable (copyCtor fail other s s2 fresh).2.1
  | push (l : SingleLinkedList α) (a : Nat) (v : α) :
      Reachable l → Reachable (l.PushFront a v)
  | pop (l : SingleLinkedList α) :
      Reachable l → l.size_ ≠ 0 → Reachable l.PopFront
  | ins (l : SingleLinkedList α) (p a : Nat) (v : α) :
      Reachable l → p ∈ l.nodeSeq → Reachable (l.InsertAfter (some p) a v).1
  | ers (l : SingleLinkedList α) (p : Nat) :
      Reachable l → l.size_ ≠ 0 → succIn p l.nodeSeq ≠ none →
      Reachable (l.EraseAfter (some p)).1
  | clearOp (l : SingleLinkedList α) : Reachable l → Reachable l.Clear
  | swapFst (l other : SingleLinkedList α) :
      Reachable l → Reachable other → Reachable (l.swap other).1
  | swapSnd (l other : SingleLinkedList α) :
      Reachable l → Reachable other → Reachable (l.swap other).2
  | asn (fail : α → Bool) (l rhs : SingleLinkedList α) (sameObj : Bool)
      (s2 s3 fresh : Nat) : Reachable l → Reachable rhs → s3 < fresh →
      Reachable (assign fail l rhs sameObj s2 s3 fresh).1

end SingleLinkedList

namespace SingleLinkedList

variable {α : Type}

lemma values_length (l : SingleLinkedList α) :
    (values l).length = l.chain.length := by
  simp [values]

lemma succIn_cons_ne (p x : Nat) (ys : List Nat) (h : x ≠ p) :
    succIn p (x :: ys) = succIn p ys := by
  cases ys with
  | nil => rfl
  | cons y ys => simp [succIn, h]

lemma insertChain_length (pos a : Nat) (v : α) :
    ∀ C : List (Nat × α), pos ∈ C.map Prod.fst →
      (insertChain pos a v C).length = C.length + 1 := by
  intro C
  induction C with
  | nil => intro h; simp at h
  | cons n rest ih =>
    intro h
    by_cases hn : n.1 = pos
    · simp [insertChain, hn]
    · have hmem : pos ∈ rest.map Prod.fst := by
        simp only [List.map_cons, List.mem_cons] at h
        rcases h with h | h
        · exact absurd h.symm hn
        · exact h
      simp [insertChain, hn, ih hmem]

lemma insertChain_append_last (a : Nat) (v : α) :
    ∀ (C0 : List (Nat × α)) (nl : Nat × α), nl.1 ∉ C0.map Prod.fst →
      insertChain nl.1 a v (C0 ++ [nl]) = C0 ++ [nl, (a, v)] := by
  intro C0
  induction C0 with
  | nil => intro nl _; simp [insertChain]
  | cons n rest ih =>
    intro nl h
    have hn : ¬ n.1 = nl.1 := by
      intro hc
      exact h (by simp [hc])
    have hrest : nl.1 ∉ rest.map Prod.fst := by
      intro hc
      exact h (by simp [hc])
    show insertChain nl.1 a v (n :: (rest ++ [nl])) = n :: (rest ++ [nl, (a, v)])
    simp only [insertChain, if_neg hn]
    exact congrArg (n :: ·) (ih nl hrest)

lemma eraseChain_spec (p : Nat) :
    ∀ C : List (Nat × α), succIn p (C.map Prod.fst) ≠ none →
      (eraseChain p C).1.map Prod.snd =
        (C.map Prod.snd).eraseIdx
          ((C.map Prod.fst).findIdx (fun x => x == p) + 1) ∧
      (eraseChain p C).1.length + 1 = C.length ∧
      (eraseChain p C).2 = succIn p ((eraseChain p C).1.map Prod.fst) := by
  intro C
  induction C with
  | nil => intro h; simp [succIn] at h
  | cons n rest ih =>
    intro h
    by_cases hn : n.1 = p
    · cases rest with
      | nil => simp [succIn, List.map, hn] at h
      | cons m rest2 =>
        refine ⟨?_, by simp [eraseChain, hn], ?_⟩
        · simp [eraseChain, hn, List.findIdx_cons]
        · simp only [eraseChain, if_pos hn]
          cases rest2 with
          | nil => simp [succIn, hn]
          | cons q rest3 => simp [succIn, hn]
    · have hns : succIn p (rest.map Prod.fst) ≠ none := by
        simp only [List.map_cons] at h
        rwa [succIn_cons_ne p n.1 (rest.map Prod.fst) hn] at h
      obtain ⟨ih1, ih2, ih3⟩ := ih hns
      have hbeq : (n.1 == p) = false := beq_eq_false_iff_ne.mpr hn
      refine ⟨?_, ?_, ?_⟩
      · simp only [eraseChain, if_neg hn, List.map_cons, List.findIdx_cons,
          hbeq, cond_false]
        rw [List.eraseIdx_cons_succ, ih1]
      · simp only [eraseChain, if_neg hn, List.length_cons]
        omega
      · simp only [eraseChain, if_neg hn, List.map_cons]
        rw [succIn_cons_ne p n.1 _ hn, ih3]

end SingleLinkedList

namespace SingleLinkedList

variable {α : Type}

/-- Master lemma for the `CreateSingleLinkedList` insertion loop.  Running
the loop on source values `vs` from a copy state `⟨s2, C, C.length⟩` whose
node addresses are strictly increasing below `fresh` and whose cursor names
the last inserted node (the sentinel when the copy is empty) appends the
longest prefix of `vs` whose element copies succeed, allocating one node
per appended element, and reports success iff every element copy
succeeds. -/
lemma createLoop_go (fail : α → Bool) :
    ∀ (vs : List α) (C : List (Nat × α)) (pos fresh s2 : Nat),
      List.Pairwise (· < ·) (s2 :: C.map Prod.fst) →
      (∀ x ∈ s2 :: C.map Prod.fst, x < fresh) →
      ((C = [] ∧ pos = s2) ∨ (∃ C0 nl, C = C0 ++ [nl] ∧ pos = nl.1)) →
      ∃ D : List (Nat × α),
        createLoop fail vs ⟨s2, C, C.length⟩ (some pos) fresh =
          (vs.all (fun v => !fail v),
            ⟨s2, D, C.length + (vs.takeWhile (fun v => !fail v)).length⟩,
            (vs.takeWhile (fun v => !fail v)).length) ∧
        D.map Prod.snd = C.map Prod.snd ++ vs.takeWhile (fun v => !fail v) ∧
        D.length = C.length + (vs.takeWhile (fun v => !fail v)).length := by
  intro vs
  induction vs with
  | nil =>
    intro C pos fresh s2 _ _ _
    exact ⟨C, by simp [createLoop], by simp, by simp⟩
  | cons v vs ih =>
    intro C pos fresh s2 hpw hbound hshape
    by_cases hfv : fail v = true
    · refine ⟨C, ?_, by simp [List.takeWhile_cons, hfv],
        by simp [List.takeWhile_cons, hfv]⟩
      simp [createLoop, hfv, List.takeWhile_cons]
    · have hfv' : fail v = false := by simpa using hfv
      have htw : (v :: vs).takeWhile (fun v => !fail v) =
          v :: vs.takeWhile (fun v => !fail v) :=
        List.takeWhile_cons_of_pos (by simp [hfv'])
      have hstep : InsertAfter ⟨s2, C, C.length⟩ (some pos) fresh v =
          (⟨s2, C ++ [(fresh, v)], C.length + 1⟩, some fresh) := by
        rcases hshape with ⟨hC, hpos⟩ | ⟨C0, nl, hC, hpos⟩
        · subst hC; subst hpos
          simp [InsertAfter]
        · subst hC; subst hpos
          have hmem : nl.1 ∈ (C0 ++ [nl]).map Prod.fst := by simp
          have hlt : s2 < nl.1 := (List.pairwise_cons.mp hpw).1 _ hmem
          have hne : ¬ nl.1 = s2 := by omega
          have hnotin : nl.1 ∉ C0.map Prod.fst := by
            have hpw2 := (List.pairwise_cons.mp hpw).2
            rw [List.map_append] at hpw2
            intro hmem0
            have := (List.pairwise_append.mp hpw2).2.2 _ hmem0 nl.1 (by simp)
            omega
          simp only [InsertAfter, if_neg hne]
          rw [insertChain_append_last fresh v C0 nl hnotin]
          simp
      have hpw' : List.Pairwise (· < ·) ((s2 :: C.map Prod.fst) ++ [fresh]) := by
        refine List.pairwise_append.mpr ⟨hpw, List.pairwise_singleton _ _, ?_⟩
        intro a ha b hb
        have hb' : b = fresh := List.mem_singleton.mp hb
        subst hb'
        exact hbound a ha
      have hbound' :
          ∀ x ∈ s2 :: (C ++ [(fresh, v)]).map Prod.fst, x < fresh + 1 := by
        intro x hx
        rcases List.mem_cons.mp hx with h1 | h1
        · subst h1
          have := hbound x (by simp)
          omega
        · rw [List.map_append] at h1
          rcases List.mem_append.mp h1 with h2 | h2
          · have := hbound x (by simp [h2])
            omega
          · have hx2 : x = fresh := by simpa using h2
            omega
      obtain ⟨D, hEq, hsnd, hlen⟩ := ih (C ++ [(fresh, v)]) fresh (fresh + 1)
        s2 (by simpa using hpw') hbound' (Or.inr ⟨C, (fresh, v), rfl, rfl⟩)
      have hlenC : (C ++ [(fresh, v)]).length = C.length + 1 := by simp
      rw [hlenC] at hEq
      refine ⟨D, ?_, ?_, ?_⟩
      · simp only [createLoop, hfv', Bool.false_eq_true, if_false, hstep,
          hEq, List.all_cons, htw, Bool.not_false, Bool.true_and, true_and,
          List.length_cons]
        refine Prod.ext rfl (Prod.ext ?_ ?_)
        · simp only []
          congr 1
          omega
        · simp
      · rw [hsnd, htw]
        simp [List.map_append]
      · rw [hlen, htw]
        simp only [List.length_cons]
        omega

end SingleLinkedList

namespace SingleLinkedList

variable {α : Type}

lemma takeWhile_notFalse (vs : List α) :
    vs.takeWhile (fun v => !(fun _ : α => false) v) = vs := by
  induction vs with
  | nil => rfl
  | cons v vs ih => simp [List.takeWhile_cons, ih]

/-- `CreateSingleLinkedList` on a target list `l`, copying the value
sequence `vals` with element-copy outcome `fail`: on success `l` adopts the
full copy and the local object frees `l`'s old nodes; on failure `l` is
unchanged and every allocated node is freed by the local object's
destructor. -/
lemma CreateSingleLinkedList_spec (fail : α → Bool) (l : SingleLinkedList α)
    (vals : List α) (s2 fresh : Nat) (h : s2 < fresh) :
    ∃ D : List (Nat × α),
      D.map Prod.snd = vals.takeWhile (fun v => !fail v) ∧
      D.length = (vals.takeWhile (fun v => !fail v)).length ∧
      CreateSingleLinkedList fail l vals s2 fresh =
        (if vals.all (fun v => !fail v) then
          (true, ⟨l.head_, D, D.length⟩, D.length, l.chain.length)
        else
          (false, l, D.length, D.length)) := by
  obtain ⟨D, hEq, hsnd, hlen⟩ :=
    createLoop_go fail vals [] s2 fresh s2 (by simp)
      (by
        intro x hx
        have hx' : x = s2 := by simpa using hx
        omega)
      (Or.inl ⟨rfl, rfl⟩)
  simp only [List.length_nil, List.map_nil, List.nil_append, Nat.zero_add]
    at hEq hsnd hlen
  refine ⟨D, hsnd, hlen, ?_⟩
  by_cases hall : vals.all (fun v => !fail v) = true
  · simp only [CreateSingleLinkedList, hEq, hall, if_true, swap, hlen]
  · have hall' : vals.all (fun v => !fail v) = false := by
      simpa using hall
    simp only [CreateSingleLinkedList, hEq, hall', Bool.false_eq_true,
      if_false, hlen]

/-- Unfolding `InsertAfter` at the sentinel cursor. -/
lemma InsertAfter_sentinel (l : SingleLinkedList α) (a : Nat) (v : α) :
    l.InsertAfter (some l.head_) a v =
      (⟨l.head_, (a, v) :: l.chain, l.size_ + 1⟩, some a) := by
  simp [InsertAfter]

/-- Unfolding `InsertAfter` at a non-sentinel cursor. -/
lemma InsertAfter_notSentinel (l : SingleLinkedList α) (p a : Nat) (v : α)
    (hp : ¬ p = l.head_) :
    l.InsertAfter (some p) a v =
      (⟨l.head_, insertChain p a v l.chain, l.size_ + 1⟩, some a) := by
  simp only [InsertAfter]
  rw [if_neg hp]

/-- Unfolding `EraseAfter` at the sentinel cursor. -/
lemma EraseAfter_sentinel (l : SingleLinkedList α) :
    l.EraseAfter (some l.head_) =
      (⟨l.head_, l.chain.tail, l.size_ - 1⟩,
        l.chain.tail.head?.map Prod.fst) := by
  simp [EraseAfter]

/-- Unfolding `EraseAfter` at a non-sentinel cursor. -/
lemma EraseAfter_notSentinel (l : SingleLinkedList α) (p : Nat)
    (hp : ¬ p = l.head_) :
    l.EraseAfter (some p) =
      (⟨l.head_, (eraseChain p l.chain).1, l.size_ - 1⟩,
        (eraseChain p l.chain).2) := by
  simp only [EraseAfter]
  rw [if_neg hp]

/-- The initializer-list constructor produces the input sequence, with the
stored size equal to its length. -/
lemma initList_spec (s s2 fresh : Nat) (vals : List α) (h : s2 < fresh) :
    (initList s s2 fresh vals).head_ = s ∧
    values (initList s s2 fresh vals) = vals ∧
    (initList s s2 fresh vals).size_ = vals.length ∧
    (initList s s2 fresh vals).chain.length = vals.length := by
  obtain ⟨D, hsnd, hlen, hEq⟩ :=
    CreateSingleLinkedList_spec (fun _ : α => false) ⟨s, [], 0⟩ vals s2 fresh h
  rw [takeWhile_notFalse] at hsnd hlen
  have hall : vals.all (fun v => !(fun _ : α => false) v) = true := by
    simp
  have hres : initList s s2 fresh vals = ⟨s, D, D.length⟩ := by
    simp only [initList, hEq, hall, if_true]
  rw [hres]
  exact ⟨rfl, by simpa [values] using hsnd, by simpa using hlen,
    by simpa using hlen⟩

/-- Every list state reachable through the public interface keeps the
stored `size_` equal to the chain length. -/
lemma reachable_wf (l : SingleLinkedList α) (h : Reachable l) : WF l := by
  induction h with
  | ctorDefault s => rfl
  | ctorInitList s s2 fresh vals hlt =>
    obtain ⟨_, _, hsz, hlen⟩ := initList_spec s s2 fresh vals hlt
    unfold WF
    omega
  | ctorCopy fail other s s2 fresh _ hlt ih =>
    obtain ⟨D, hsnd, hlen, hEq⟩ :=
      CreateSingleLinkedList_spec fail ⟨s, [], 0⟩ (values other) s2 fresh hlt
    unfold copyCtor
    rw [hEq]
    by_cases hall : (values other).all (fun v => !fail v) = true
    · simp [hall, WF]
    · have hall' : (values other).all (fun v => !fail v) = false := by
        simpa using hall
      simp [hall', WF]
  | push l a v _ ih =>
    have ih' : l.size_ = l.chain.length := ih
    simp [WF, PushFront, ih']
  | pop l _ hsz ih =>
    have ih' : l.size_ = l.chain.length := ih
    unfold WF
    simp only [PopFront, List.length_tail]
    omega
  | ins l p a v _ hmem ih =>
    have ih' : l.size_ = l.chain.length := ih
    by_cases hp : p = l.head_
    · subst hp
      rw [show (l.InsertAfter (some l.head_) a v).1 =
          ⟨l.head_, (a, v) :: l.chain, l.size_ + 1⟩ from
          congrArg Prod.fst (InsertAfter_sentinel l a v)]
      simp [WF, ih']
    · have hmem' : p ∈ l.chain.map Prod.fst := by
        rcases List.mem_cons.mp hmem with h1 | h1
        · exact absurd h1 hp
        · exact h1
      rw [show (l.InsertAfter (some p) a v).1 =
          ⟨l.head_, insertChain p a v l.chain, l.size_ + 1⟩ from
          congrArg Prod.fst (InsertAfter_notSentinel l p a v hp)]
      simp [WF, insertChain_length p a v l.chain hmem', ih']
  | ers l p _ hsz hsucc ih =>
    have ih' : l.size_ = l.chain.length := ih
    by_cases hp : p = l.head_
    · subst hp
      have hch : l.chain ≠ [] := by
        intro hc
        rw [show l.nodeSeq = [l.head_] by simp [nodeSeq, addrs, hc]] at hsucc
        exact hsucc rfl
      have hlen : l.chain.length ≠ 0 :=
        fun hc => hch (List.eq_nil_of_length_eq_zero hc)
      rw [show (l.EraseAfter (some l.head_)).1 =
          ⟨l.head_, l.chain.tail, l.size_ - 1⟩ from
          congrArg Prod.fst (EraseAfter_sentinel l)]
      unfold WF
      simp only [List.length_tail]
      omega
    · have hne : l.head_ ≠ p := fun hc => hp hc.symm
      have hsucc' : succIn p (l.chain.map Prod.fst) ≠ none := by
        have hcne := succIn_cons_ne p l.head_ (l.chain.map Prod.fst) hne
        unfold nodeSeq addrs at hsucc
        rwa [hcne] at hsucc
      obtain ⟨_, hlen, _⟩ := eraseChain_spec p l.chain hsucc'
      rw [show (l.EraseAfter (some p)).1 =
          ⟨l.head_, (eraseChain p l.chain).1, l.size_ - 1⟩ from
          congrArg Prod.fst (EraseAfter_notSentinel l p hp)]
      unfold WF
      simp only []
      omega
  | clearOp l _ ih => simp [WF, Clear]
  | swapFst l other _ _ ih1 ih2 => simpa [WF, swap] using ih2
  | swapSnd l other _ _ ih1 ih2 => simpa [WF, swap] using ih1
  | asn fail l rhs sameObj s2 s3 fresh _ _ hlt ih1 ih2 =>
    by_cases hsame : sameObj = true
    · simpa [assign, hsame] using ih1
    · have hsame' : sameObj = false := by simpa using hsame
      obtain ⟨D, hsnd, hlen, hEq⟩ :=
        CreateSingleLinkedList_spec fail ⟨s2, [], 0⟩ (values rhs) s3 fresh hlt
      by_cases hall : (values rhs).all (fun v => !fail v) = true
      · simp [assign, hsame', copyCtor, hEq, hall, swap, WF]
      · have hall' : (values rhs).all (fun v => !fail v) = false := by
          simpa using hall
        simpa [assign, hsame', copyCtor, hEq, hall', WF] using ih1

end SingleLinkedList

lemma stdEqual_iff [DecidableEq α] :
    ∀ as bs : List α, as.length = bs.length →
      (stdEqual as bs = true ↔ as = bs) := by
  intro as
  induction as with
  | nil =>
    intro bs hlen
    cases bs with
    | nil => simp [stdEqual]
    | cons b bs => simp at hlen
  | cons a as ih =>
    intro bs hlen
    cases bs with
    | nil => simp at hlen
    | cons b bs =>
      have hlen' : as.length = bs.length := by simpa using hlen
      simp [stdEqual, ih bs hlen', and_comm]

lemma lexCompare_iff_lex [LinearOrder α] :
    ∀ as bs : List α, (lexCompare as bs = true ↔ List.Lex (· < ·) as bs) := by
  intro as
  induction as with
  | nil =>
    intro bs
    cases bs with
    | nil =>
      refine iff_of_false (by simp [lexCompare]) ?_
      intro h
      cases h
    | cons b bs => exact iff_of_true rfl List.Lex.nil
  | cons a as ih =>
    intro bs
    cases bs with
    | nil =>
      refine iff_of_false (by simp [lexCompare]) ?_
      intro h
      cases h
    | cons b bs =>
      rcases lt_trichotomy a b with h | h | h
      · exact iff_of_true (by simp [lexCompare, h]) (List.Lex.rel h)
      · subst h
        rw [show lexCompare (a :: as) (a :: bs) = lexCompare as bs from by
          simp [lexCompare, lt_irrefl]]
        rw [ih bs]
        constructor
        · exact List.Lex.cons
        · intro hl
          cases hl with
          | cons h => exact h
          | rel h => exact absurd h (lt_irrefl a)
      · refine iff_of_false (by simp [lexCompare, asymm h, h]) ?_
        intro hl
        cases hl with
        | cons h2 => exact absurd h (lt_irrefl a)
        | rel h2 => exact absurd h2 (asymm h)

lemma lexCompare_append_cons [LinearOrder α] :
    ∀ (as : List α) (b : α) (bs : List α),
      lexCompare as (as ++ b :: bs) = true := by
  intro as
  induction as with
  | nil => intro b bs; rfl
  | cons a as ih => intro b bs; simp [lexCompare, lt_irrefl, ih b bs]

lemma lexCompare_false_iff [LinearOrder α] :
    ∀ as bs : List α,
      (lexCompare bs as = false ↔ (lexCompare as bs = true ∨ as = bs)) := by
  intro as
  induction as with
  | nil =>
    intro bs
    cases bs with
    | nil => exact iff_of_true rfl (Or.inr rfl)
    | cons c cs => exact iff_of_true rfl (Or.inl rfl)
  | cons a as ih =>
    intro bs
    cases bs with
    | nil =>
      refine iff_of_false (by simp [lexCompare]) ?_
      rintro (h | h)
      · simp [lexCompare] at h
      · exact List.noConfusion h
    | cons c cs =>
      rcases lt_trichotomy a c with h | h | h
      · refine iff_of_true ?_ (Or.inl (by simp [lexCompare, h]))
        simp [lexCompare, asymm h, h]
      · subst h
        rw [show lexCompare (a :: cs) (a :: as) = lexCompare cs as from by
          simp [lexCompare, lt_irrefl]]
        rw [show lexCompare (a :: as) (a :: cs) = lexCompare as cs from by
          simp [lexCompare, lt_irrefl]]
        rw [ih cs]
        simp
      · refine iff_of_false (by simp [lexCompare, h]) ?_
        rintro (h2 | h2)
        · simp [lexCompare, asymm h, h] at h2
        · rw [List.cons.injEq] at h2
          exact absurd (h2.1 ▸ h) (lt_irrefl a)

namespace SingleLinkedList

variable {α : Type}

lemma takeWhile_eq_of_all (P : α → Bool) :
    ∀ vs : List α, vs.all P = true → vs.takeWhile P = vs := by
  intro vs
  induction vs with
  | nil => intro _; rfl
  | cons v vs ih =>
    intro h
    have h' : P v = true ∧ vs.all P = true := by simpa using h
    simp [List.takeWhile_cons, h'.1, ih h'.2]

end SingleLinkedList

/-- C5: for every List `L` and value `v`, `InsertAfter(L.before_begin(), v)`
produces the same observable state (element sequence and size) as
`PushFront(v)` on `L`. -/
theorem C5_insertAfter_beforeBegin_eq_pushFront (l : SingleLinkedList α)
    (a : Nat) (v : α) :
    values (l.InsertAfter (before_begin l) a v).1 = values (l.PushFront a v) ∧
    (l.InsertAfter (before_begin l) a v).1.GetSize =
      (l.PushFront a v).GetSize := by
  rw [show before_begin l = some l.head_ from rfl,
    SingleLinkedList.InsertAfter_sentinel l a v]
  exact ⟨rfl, rfl⟩

/-- C6: for every List `L` and value `v`, `PushFront(v)` followed by
`PopFront()` leaves `L` unchanged (in particular the element sequence and
size are those before the pair of operations). -/
theorem C6_pushFront_popFront (l : SingleLinkedList α) (a : Nat) (v : α) :
    (l.PushFront a v).PopFront = l :=
  rfl

/-- C8: the List constructed from a literal sequence of elements holds a
chain whose elements appear in the same order as the input, and its size
equals the input length. -/
theorem C8_initList_spec (s s2 fresh : Nat) (vals : List α)
    (h : s2 < fresh) :
    values (initList s s2 fresh vals) = vals ∧
    (initList s s2 fresh vals).GetSize = vals.length := by
  obtain ⟨_, hvals, hsz, _⟩ := SingleLinkedList.initList_spec s s2 fresh vals h
  exact ⟨hvals, hsz⟩

/-- Witness for C8 at the spec's example `[1, 2, 3, 4]`. -/
theorem C8_initList_spec_witness :
    (0 : Nat) < 1 ∧
    (values (initList 100 0 1 ([1, 2, 3, 4] : List Nat)) = [1, 2, 3, 4] ∧
      (initList 100 0 1 ([1, 2, 3, 4] : List Nat)).GetSize = 4) :=
  ⟨by decide, C8_initList_spec 100 0 1 [1, 2, 3, 4] (by decide)⟩

/-- C9: for every List reachable by a sequence of public operations,
`IsEmpty()` returns true iff `begin()` equals `end()` (the stored size is
zero exactly when the sentinel's forward link is null). -/
theorem C9_isEmpty_iff_begin_eq_end (l : SingleLinkedList α)
    (h : Reachable l) :
    l.IsEmpty = true ↔ begin l = endIt l := by
  have hwf : l.size_ = l.chain.length := SingleLinkedList.reachable_wf l h
  unfold SingleLinkedList.IsEmpty begin endIt
  constructor
  · intro he
    have h0 : l.size_ = 0 := by simpa using he
    have hch : l.chain = [] := List.eq_nil_of_length_eq_zero (by omega)
    simp [hch]
  · intro he
    cases hc : l.chain with
    | nil =>
      have h0 : l.size_ = 0 := by rw [hwf, hc]; rfl
      simp [h0]
    | cons n rest =>
      rw [hc] at he
      simp at he

/-- Witness for C9 at the default-constructed empty list. -/
theorem C9_isEmpty_iff_begin_eq_end_witness :
    Reachable (⟨0, [], 0⟩ : SingleLinkedList Nat) ∧
    ((⟨0, [], 0⟩ : SingleLinkedList Nat).IsEmpty = true ↔
      begin (⟨0, [], 0⟩ : SingleLinkedList Nat) =
        endIt (⟨0, [], 0⟩ : SingleLinkedList Nat)) :=
  ⟨Reachable.ctorDefault 0,
    C9_isEmpty_iff_begin_eq_end ⟨0, [], 0⟩ (Reachable.ctorDefault 0)⟩

/-- C2 (amended): after `swap(a, b)` the element sequence and size of `a`
are those `b` had before and vice versa; every cursor to a real node of
either List now refers into the other List; a `before_begin` /
`cbefore_begin` cursor, however, keeps referring into its original List
(it names that List's embedded sentinel, which the swap does not move),
and that List now holds the other List's former elements. -/
theorem C2_swap_spec (a b : SingleLinkedList α) :
    values (a.swap b).1 = values b ∧ (a.swap b).1.GetSize = b.GetSize ∧
    values (a.swap b).2 = values a ∧ (a.swap b).2.GetSize = a.GetSize ∧
    (∀ c ∈ a.addrs, refersInto c (a.swap b).2) ∧
    (∀ c ∈ b.addrs, refersInto c (a.swap b).1) ∧
    refersInto a.head_ (a.swap b).1 ∧
    refersInto b.head_ (a.swap b).2 := by
  refine ⟨rfl, rfl, rfl, rfl, ?_, ?_, Or.inl rfl, Or.inl rfl⟩
  · intro c hc
    exact Or.inr hc
  · intro c hc
    exact Or.inr hc

/-- Witness for C2 on the spec's example `A = [1,2,3]`, `B = [9,8]`. -/
theorem C2_swap_spec_witness :
    (1 ∈ (⟨0, [(1, 1), (2, 2), (3, 3)], 3⟩ : SingleLinkedList Nat).addrs) ∧
    refersInto 1
      ((⟨0, [(1, 1), (2, 2), (3, 3)], 3⟩ : SingleLinkedList Nat).swap
        ⟨10, [(11, 9), (12, 8)], 2⟩).2 :=
  ⟨by decide,
    (C2_swap_spec (⟨0, [(1, 1), (2, 2), (3, 3)], 3⟩ : SingleLinkedList Nat)
      ⟨10, [(11, 9), (12, 8)], 2⟩).2.2.2.2.1 1 (by decide)⟩

/-- C2 counterexample: the claim additionally asserts that `before_begin` /
`cbefore_begin` cursors refer into the other List after the swap.  With
`A = [1,2,3]` (sentinel at address 0) and `B = [9,8]`, the pre-swap
`before_begin` cursor of `A` references node 0, and after `swap(A, B)` that
node is not owned by the other list (post-swap `B`): the swap exchanges the
sentinels' forward links, not the sentinels themselves. -/
theorem C2_swap_counterexample :
    before_begin (⟨0, [(1, 1), (2, 2), (3, 3)], 3⟩ : SingleLinkedList Nat) =
      some 0 ∧
    ¬ refersInto 0
      ((⟨0, [(1, 1), (2, 2), (3, 3)], 3⟩ : SingleLinkedList Nat).swap
        ⟨10, [(11, 9), (12, 8)], 2⟩).2 ∧
    refersInto 0
      ((⟨0, [(1, 1), (2, 2), (3, 3)], 3⟩ : SingleLinkedList Nat).swap
        ⟨10, [(11, 9), (12, 8)], 2⟩).1 :=
  ⟨rfl, by decide, by decide⟩

lemma listEq_iff [DecidableEq α] (l r : SingleLinkedList α)
    (hl : l.WF) (hr : r.WF) :
    (listEq l r = true ↔ (l.GetSize = r.GetSize ∧ values l = values r)) := by
  have hl' : l.size_ = l.chain.length := hl
  have hr' : r.size_ = r.chain.length := hr
  unfold listEq GetSize
  constructor
  · intro h
    have h1 : (l.size_ == r.size_) = true ∧
        stdEqual (values l) (values r) = true := by
      simpa [Bool.and_eq_true] using h
    have hsz : l.size_ = r.size_ := by simpa using h1.1
    have hlen : (values l).length = (values r).length := by
      rw [SingleLinkedList.values_length, SingleLinkedList.values_length]
      omega
    exact ⟨hsz, (stdEqual_iff _ _ hlen).mp h1.2⟩
  · rintro ⟨hsz, hv⟩
    have hlen : (values l).length = (values r).length := by rw [hv]
    simp [hsz, (stdEqual_iff _ _ hlen).mpr hv]

lemma listLe_iff_values [LinearOrder α] (l r : SingleLinkedList α) :
    listLe l r = true ↔ (listLt l r = true ∨ values l = values r) := by
  unfold listLe listLt
  rw [Bool.not_eq_true']
  exact lexCompare_false_iff (values l) (values r)

lemma listGe_iff_values [LinearOrder α] (l r : SingleLinkedList α) :
    listGe l r = true ↔ (listLt r l = true ∨ values r = values l) := by
  unfold listGe listLt
  rw [Bool.not_eq_true']
  exact lexCompare_false_iff (values r) (values l)

/-- C3: `operator==` returns true iff the two lists have the same size and
their elements compare equal pairwise in order (i.e. their traversal
sequences coincide), and `operator!=` returns the negation of
`operator==`. -/
theorem C3_listEq_spec [DecidableEq α] (l r : SingleLinkedList α)
    (hl : l.WF) (hr : r.WF) :
    (listEq l r = true ↔ (l.GetSize = r.GetSize ∧ values l = values r)) ∧
    listNe l r = !(listEq l r) :=
  ⟨listEq_iff l r hl hr, rfl⟩

/-- Witness for C3 on two equal two-element lists. -/
theorem C3_listEq_spec_witness :
    (⟨0, [(1, 5), (2, 6)], 2⟩ : SingleLinkedList Nat).WF ∧
    (⟨10, [(11, 5), (12, 6)], 2⟩ : SingleLinkedList Nat).WF ∧
    listEq (⟨0, [(1, 5), (2, 6)], 2⟩ : SingleLinkedList Nat)
      ⟨10, [(11, 5), (12, 6)], 2⟩ = true :=
  ⟨rfl, rfl,
    ((C3_listEq_spec (⟨0, [(1, 5), (2, 6)], 2⟩ : SingleLinkedList Nat)
        ⟨10, [(11, 5), (12, 6)], 2⟩ rfl rfl).1).mpr
      ⟨rfl, rfl⟩⟩

/-- C4: `operator<` computes the lexicographic strict order on the element
sequences under the element type's less-than; `<=`, `>`, `>=` derive from
it in the usual way; the empty list is less than any non-empty list, and a
proper prefix is less than its extension. -/
theorem C4_ordering_spec [LinearOrder α] (l r : SingleLinkedList α) :
    (listLt l r = true ↔ List.Lex (· < ·) (values l) (values r)) ∧
    (listLe l r = true ↔ (listLt l r = true ∨ values l = values r)) ∧
    listGt l r = listLt r l ∧
    (listGe l r = true ↔ (listLt r l = true ∨ values r = values l)) ∧
    (values l = [] → values r ≠ [] → listLt l r = true) ∧
    (∀ (v : α) (vs : List α),
      values r = values l ++ v :: vs → listLt l r = true) := by
  refine ⟨lexCompare_iff_lex _ _, listLe_iff_values l r, rfl,
    listGe_iff_values l r, ?_, ?_⟩
  · intro h1 h2
    unfold listLt
    rw [h1]
    cases hvr : values r with
    | nil => exact absurd hvr h2
    | cons c cs => rfl
  · intro v vs h
    unfold listLt
    rw [h]
    exact lexCompare_append_cons _ v vs

/-- Witness for C4: the empty list is less than `[9, 8]`. -/
theorem C4_ordering_spec_witness :
    listLt (⟨0, [], 0⟩ : SingleLinkedList Nat) ⟨10, [(11, 9), (12, 8)], 2⟩ =
      true :=
  (C4_ordering_spec (⟨0, [], 0⟩ : SingleLinkedList Nat)
    ⟨10, [(11, 9), (12, 8)], 2⟩).2.2.2.2.1 rfl (by decide)

/-- C10: for element types with a total order, `operator<=` (defined as
`!(rhs < lhs)`) returns true iff `operator<` or `operator==` returns
true. -/
theorem C10_le_iff_lt_or_eq [LinearOrder α] [DecidableEq α]
    (l r : SingleLinkedList α) (hl : l.WF) (hr : r.WF) :
    listLe l r = true ↔ (listLt l r = true ∨ listEq l r = true) := by
  rw [listLe_iff_values l r]
  constructor
  · rintro (h | h)
    · exact Or.inl h
    · right
      rw [listEq_iff l r hl hr]
      refine ⟨?_, h⟩
      have hl' : l.size_ = l.chain.length := hl
      have hr' : r.size_ = r.chain.length := hr
      have hlen : (values l).length = (values r).length := by rw [h]
      rw [SingleLinkedList.values_length, SingleLinkedList.values_length]
        at hlen
      unfold SingleLinkedList.GetSize
      omega
  · rintro (h | h)
    · exact Or.inl h
    · exact Or.inr ((listEq_iff l r hl hr).mp h).2

/-- Witness for C10 on two equal singleton lists. -/
theorem C10_le_iff_lt_or_eq_witness :
    (⟨0, [(1, 4)], 1⟩ : SingleLinkedList Nat).WF ∧
    (⟨10, [(11, 4)], 1⟩ : SingleLinkedList Nat).WF ∧
    listLe (⟨0, [(1, 4)], 1⟩ : SingleLinkedList Nat)
      ⟨10, [(11, 4)], 1⟩ = true :=
  ⟨rfl, rfl,
    (C10_le_iff_lt_or_eq (⟨0, [(1, 4)], 1⟩ : SingleLinkedList Nat)
        ⟨10, [(11, 4)], 1⟩ rfl rfl).mpr
      (Or.inr (by decide))⟩

/-- C7: for every List and cursor `pos` referencing an owned node (sentinel
or real) whose successor is a real node, `EraseAfter(pos)` removes exactly
that successor from the traversal sequence (the element right after `pos`
in the node sequence), decrements the stored size by one, keeps the list
object (its sentinel) intact, and returns a cursor to the element that now
follows `pos` (or the end cursor if none).  The model of `EraseAfter` is a
total function: the operation never fails. -/
theorem C7_EraseAfter_spec (l : SingleLinkedList α) (p : Nat)
    (hsz : l.size_ ≠ 0) (hsucc : succIn p l.nodeSeq ≠ none) :
    values (l.EraseAfter (some p)).1 =
      (values l).eraseIdx (l.nodeSeq.findIdx (fun x => x == p)) ∧
    (l.EraseAfter (some p)).1.size_ + 1 = l.size_ ∧
    (l.EraseAfter (some p)).1.head_ = l.head_ ∧
    (l.EraseAfter (some p)).2 = succIn p (l.EraseAfter (some p)).1.nodeSeq := by
  by_cases hp : p = l.head_
  · subst hp
    rw [SingleLinkedList.EraseAfter_sentinel l]
    refine ⟨?_, show l.size_ - 1 + 1 = l.size_ by omega, rfl, ?_⟩
    · have hfind : l.nodeSeq.findIdx (fun x => x == l.head_) = 0 := by
        simp [SingleLinkedList.nodeSeq, List.findIdx_cons]
      rw [hfind]
      cases hc : l.chain with
      | nil => simp [values, hc]
      | cons n rest => simp [values, hc]
    · cases hc : l.chain with
      | nil =>
        simp [SingleLinkedList.nodeSeq, SingleLinkedList.addrs, hc, succIn]
      | cons n rest =>
        cases hr : rest with
        | nil =>
          simp [SingleLinkedList.nodeSeq, SingleLinkedList.addrs, hc, hr,
            succIn]
        | cons m rest2 =>
          simp [SingleLinkedList.nodeSeq, SingleLinkedList.addrs, hc, hr,
            succIn]
  · rw [SingleLinkedList.EraseAfter_notSentinel l p hp]
    have hne : l.head_ ≠ p := fun hc => hp hc.symm
    have hsucc' : succIn p (l.chain.map Prod.fst) ≠ none := by
      unfold SingleLinkedList.nodeSeq SingleLinkedList.addrs at hsucc
      rwa [SingleLinkedList.succIn_cons_ne p l.head_ _ hne] at hsucc
    obtain ⟨h1, h2, h3⟩ := SingleLinkedList.eraseChain_spec p l.chain hsucc'
    refine ⟨?_, show l.size_ - 1 + 1 = l.size_ by omega, rfl, ?_⟩
    · have hb : (l.head_ == p) = false := beq_eq_false_iff_ne.mpr hne
      have hfind : l.nodeSeq.findIdx (fun x => x == p) =
          (l.chain.map Prod.fst).findIdx (fun x => x == p) + 1 := by
        simp [SingleLinkedList.nodeSeq, SingleLinkedList.addrs,
          List.findIdx_cons, hb]
      rw [hfind]
      exact h1
    · rw [show (⟨l.head_, (eraseChain p l.chain).1, l.size_ - 1⟩ :
          SingleLinkedList α).nodeSeq =
          l.head_ :: (eraseChain p l.chain).1.map Prod.fst from rfl]
      rw [SingleLinkedList.succIn_cons_ne p l.head_ _ hne]
      exact h3

/-- Witness for C7: erasing after the node at address 1 in
`[(1,10), (2,20), (3,30)]` removes the value 20. -/
theorem C7_EraseAfter_spec_witness :
    ((⟨0, [(1, 10), (2, 20), (3, 30)], 3⟩ : SingleLinkedList Nat).size_ ≠ 0) ∧
    succIn 1
      (⟨0, [(1, 10), (2, 20), (3, 30)], 3⟩ : SingleLinkedList Nat).nodeSeq ≠
      none ∧
    values ((⟨0, [(1, 10), (2, 20), (3, 30)], 3⟩ :
      SingleLinkedList Nat).EraseAfter (some 1)).1 = [10, 30] ∧
    ((⟨0, [(1, 10), (2, 20), (3, 30)], 3⟩ :
      SingleLinkedList Nat).EraseAfter (some 1)).2 = some 3 := by
  refine ⟨by decide, by decide, ?_, by decide⟩
  have h := (C7_EraseAfter_spec
    (⟨0, [(1, 10), (2, 20), (3, 30)], 3⟩ : SingleLinkedList Nat) 1
    (by decide) (by decide)).1
  rw [h]
  decide

/-- C1: copy assignment on distinct list objects either succeeds
completely — the destination becomes a full independent copy of the
right-hand side (same value sequence, size equal to its length, same
destination sentinel), allocating one node per copied element and freeing
exactly the destination's old nodes — or, when an element copy fails
partway, leaves the destination in its pre-assignment state with every
node allocated during the attempt freed again (no leak).  Assigning a list
to itself (`this == &rhs`, modelled by `sameObj = true`) is a no-op. -/
theorem C1_assign_spec (fail : α → Bool) (l rhs : SingleLinkedList α)
    (s2 s3 fresh : Nat) (h : s3 < fresh) :
    assign fail l rhs true s2 s3 fresh = (l, 0, 0) ∧
    ((∃ v ∈ values rhs, fail v = true) →
      (assign fail l rhs false s2 s3 fresh).1 = l ∧
      (assign fail l rhs false s2 s3 fresh).2.1 =
        (assign fail l rhs false s2 s3 fresh).2.2) ∧
    ((∀ v ∈ values rhs, fail v = false) →
      values (assign fail l rhs false s2 s3 fresh).1 = values rhs ∧
      (assign fail l rhs false s2 s3 fresh).1.GetSize =
        (values rhs).length ∧
      (assign fail l rhs false s2 s3 fresh).1.head_ = l.head_ ∧
      (assign fail l rhs false s2 s3 fresh).2.1 = (values rhs).length ∧
      (assign fail l rhs false s2 s3 fresh).2.2 = l.chain.length) := by
  obtain ⟨D, hsnd, hlen, hEq⟩ :=
    SingleLinkedList.CreateSingleLinkedList_spec fail ⟨s2, [], 0⟩
      (values rhs) s3 fresh h
  refine ⟨by simp [assign], ?_, ?_⟩
  · intro hex
    have hall : (values rhs).all (fun v => !fail v) = false := by
      rcases hex with ⟨v, hv, hfv⟩
      apply Bool.eq_false_iff.mpr
      intro hall
      have hc := List.all_eq_true.mp hall v hv
      rw [hfv] at hc
      simp at hc
    have hres : assign fail l rhs false s2 s3 fresh =
        (l, D.length, D.length) := by
      simp only [assign, Bool.false_eq_true, if_false,
        SingleLinkedList.copyCtor, hEq, hall]
    rw [hres]
    exact ⟨rfl, rfl⟩
  · intro hok
    have hall : (values rhs).all (fun v => !fail v) = true :=
      List.all_eq_true.mpr fun v hv => by simp [hok v hv]
    have htw : (values rhs).takeWhile (fun v => !fail v) = values rhs :=
      SingleLinkedList.takeWhile_eq_of_all _ _ hall
    have hres : assign fail l rhs false s2 s3 fresh =
        (⟨l.head_, D, D.length⟩, D.length, l.chain.length) := by
      simp only [assign, Bool.false_eq_true, if_false,
        SingleLinkedList.copyCtor, hEq, hall]
      simp [SingleLinkedList.swap]
    rw [hres]
    rw [htw] at hsnd hlen
    exact ⟨hsnd, hlen, rfl, hlen, rfl⟩

/-- Witness for C1: assigning `[1, 2]` with an element copy that throws on
the value 2 leaves the destination `[7]` untouched and frees exactly the
nodes it allocated. -/
theorem C1_assign_spec_witness :
    ((2 : Nat) < 3) ∧
    (∃ v ∈ values (⟨10, [(11, 1), (12, 2)], 2⟩ : SingleLinkedList Nat),
      (fun v : Nat => v == 2) v = true) ∧
    ((assign (fun v : Nat => v == 2) ⟨0, [(1, 7)], 1⟩
        ⟨10, [(11, 1), (12, 2)], 2⟩ false 50 2 3).1 = ⟨0, [(1, 7)], 1⟩ ∧
      (assign (fun v : Nat => v == 2) ⟨0, [(1, 7)], 1⟩
        ⟨10, [(11, 1), (12, 2)], 2⟩ false 50 2 3).2.1 =
      (assign (fun v : Nat => v == 2) ⟨0, [(1, 7)], 1⟩
        ⟨10, [(11, 1), (12, 2)], 2⟩ false 50 2 3).2.2) :=
  ⟨by decide, by decide,
    (C1_assign_spec (fun v : Nat => v == 2) ⟨0, [(1, 7)], 1⟩
      ⟨10, [(11, 1), (12, 2)], 2⟩ 50 2 3 (by decide)).2.1 (by decide)⟩
